import Mathlib

/-!
Verification of the TechTeller repository (Flask news aggregator).

Shallow embedding of the core logic of `src/app.py` (reaction ledger:
`like_news`, `dislike_news`, `delete_user`) and `src/fetch_hackernews.py`
(feed synchronizer: upsert + retention prune), together with proofs of the
specification claims.

Database tables are modelled as association lists keyed by the integer
primary key.  The SQLAlchemy relationships `User.liked_news` /
`User.disliked_news` are backed by association tables whose primary key is
the (user_id, news_id) pair, so a stored membership list never holds
duplicates; theorems that depend on this carry a `Nodup` hypothesis.
-/

namespace TechTeller

/-- A row of the `news` table (`class News` in `src/app.py`).  The column
`by` is a reserved word in Lean, rendered `by_author`.  All four feed
fields are nullable (`news_data.get` in the synchronizer may return
`None`), and the counters are integers with default 0. -/
structure News where
  by_author : Option String
  time : Option Int
  title : Option String
  url : Option String
  like_count : Int
  dislike_count : Int
deriving Repr, DecidableEq

/-- The reaction state of one user: the `liked_news` / `disliked_news`
relationship collections of `class User` in `src/app.py`, as lists of news
ids. -/
structure UserState where
  liked_news : List Nat
  disliked_news : List Nat
deriving Repr, DecidableEq

/-- The `action` strings returned by `like_news` / `dislike_news`. -/
inductive ReactTag where
  | liked | unliked | disliked | undisliked | switched_to_like | switched_to_dislike
deriving Repr, DecidableEq

/-- Which of the two reaction endpoints is invoked. -/
inductive Intent where
  | like | dislike
deriving Repr, DecidableEq

/-- Core of `like_news` (src/app.py lines 414-427): the membership tests
and updates on the current user's collections and the news item's
counters, after session/auth resolution and `get_or_404` succeeded. -/
def like_news (u : UserState) (nid : Nat) (n : News) : UserState × News × ReactTag :=
  if nid ∈ u.liked_news then
    ({ u with liked_news := u.liked_news.erase nid },
     { n with like_count := n.like_count - 1 }, .unliked)
  else if nid ∈ u.disliked_news then
    ({ u with disliked_news := u.disliked_news.erase nid,
              liked_news := u.liked_news ++ [nid] },
     { n with like_count := n.like_count + 1, dislike_count := n.dislike_count - 1 },
     .switched_to_like)
  else
    ({ u with liked_news := u.liked_news ++ [nid] },
     { n with like_count := n.like_count + 1 }, .liked)

/-- Core of `dislike_news` (src/app.py lines 454-467). -/
def dislike_news (u : UserState) (nid : Nat) (n : News) : UserState × News × ReactTag :=
  if nid ∈ u.disliked_news then
    ({ u with disliked_news := u.disliked_news.erase nid },
     { n with dislike_count := n.dislike_count - 1 }, .undisliked)
  else if nid ∈ u.liked_news then
    ({ u with liked_news := u.liked_news.erase nid,
              disliked_news := u.disliked_news ++ [nid] },
     { n with dislike_count := n.dislike_count + 1, like_count := n.like_count - 1 },
     .switched_to_dislike)
  else
    ({ u with disliked_news := u.disliked_news ++ [nid] },
     { n with dislike_count := n.dislike_count + 1 }, .disliked)

/-- The spec's `react(user, item, intent)` (§4.3): dispatch to the two
endpoints. -/
def react (u : UserState) (nid : Nat) (n : News) : Intent → UserState × News × ReactTag
  | .like => like_news u nid n
  | .dislike => dislike_news u nid n

/-- The four mutable feed fields of a news row agree (counters excepted). -/
def Frame (n n' : News) : Prop :=
  n'.by_author = n.by_author ∧ n'.time = n.time ∧ n'.title = n.title ∧ n'.url = n.url

instance : DecidablePred (fun p : News × News => Frame p.1 p.2) := by
  unfold Frame; infer_instance

example :
    like_news ⟨[], []⟩ 7 ⟨some "a", some 1, some "t", some "u", 5, 2⟩ =
      (⟨[7], []⟩, ⟨some "a", some 1, some "t", some "u", 6, 2⟩, .liked) := by decide

example :
    dislike_news ⟨[7], []⟩ 7 ⟨none, none, none, none, 1, 0⟩ =
      (⟨[], [7]⟩, ⟨none, none, none, none, 0, 1⟩, .switched_to_dislike) := by decide

/-- C1.  For every user and every stored item (with the membership lists as
the database stores them: duplicate-free and mutually exclusive), a react
call follows the §4.3 state machine exactly.  Six cases: from `neither`,
`like` adds liked membership, bumps `like_count` and returns `liked`, and
`dislike` adds disliked membership, bumps `dislike_count` and returns
`disliked`; from `liked`, `like` removes the membership with
`like_count - 1` returning `unliked`, and `dislike` moves the membership to
disliked with `like_count - 1`, `dislike_count + 1` returning
`switched_to_dislike`; from `disliked`, `like` moves the membership to
liked with `dislike_count - 1`, `like_count + 1` returning
`switched_to_like`, and `dislike` removes the membership with
`dislike_count - 1` returning `undisliked`.  In every case the other
counter and the four feed fields are unchanged, and no tag other than the
one listed occurs. -/
theorem react_follows_state_machine (u : UserState) (nid : Nat) (n : News)
    (hl : u.liked_news.Nodup) (hd : u.disliked_news.Nodup)
    (hmx : ¬(nid ∈ u.liked_news ∧ nid ∈ u.disliked_news)) :
    (nid ∉ u.liked_news → nid ∉ u.disliked_news →
      (react u nid n .like).1.liked_news = u.liked_news ++ [nid] ∧
      nid ∈ (react u nid n .like).1.liked_news ∧
      nid ∉ (react u nid n .like).1.disliked_news ∧
      (react u nid n .like).2.1.like_count = n.like_count + 1 ∧
      (react u nid n .like).2.1.dislike_count = n.dislike_count ∧
      Frame n (react u nid n .like).2.1 ∧
      (react u nid n .like).2.2 = .liked) ∧
    (nid ∉ u.liked_news → nid ∉ u.disliked_news →
      (react u nid n .dislike).1.disliked_news = u.disliked_news ++ [nid] ∧
      nid ∈ (react u nid n .dislike).1.disliked_news ∧
      nid ∉ (react u nid n .dislike).1.liked_news ∧
      (react u nid n .dislike).2.1.dislike_count = n.dislike_count + 1 ∧
      (react u nid n .dislike).2.1.like_count = n.like_count ∧
      Frame n (react u nid n .dislike).2.1 ∧
      (react u nid n .dislike).2.2 = .disliked) ∧
    (nid ∈ u.liked_news →
      nid ∉ (react u nid n .like).1.liked_news ∧
      nid ∉ (react u nid n .like).1.disliked_news ∧
      (react u nid n .like).2.1.like_count = n.like_count - 1 ∧
      (react u nid n .like).2.1.dislike_count = n.dislike_count ∧
      Frame n (react u nid n .like).2.1 ∧
      (react u nid n .like).2.2 = .unliked) ∧
    (nid ∈ u.liked_news →
      nid ∉ (react u nid n .dislike).1.liked_news ∧
      nid ∈ (react u nid n .dislike).1.disliked_news ∧
      (react u nid n .dislike).2.1.like_count = n.like_count - 1 ∧
      (react u nid n .dislike).2.1.dislike_count = n.dislike_count + 1 ∧
      Frame n (react u nid n .dislike).2.1 ∧
      (react u nid n .dislike).2.2 = .switched_to_dislike) ∧
    (nid ∈ u.disliked_news →
      nid ∈ (react u nid n .like).1.liked_news ∧
      nid ∉ (react u nid n .like).1.disliked_news ∧
      (react u nid n .like).2.1.like_count = n.like_count + 1 ∧
      (react u nid n .like).2.1.dislike_count = n.dislike_count - 1 ∧
      Frame n (react u nid n .like).2.1 ∧
      (react u nid n .like).2.2 = .switched_to_like) ∧
    (nid ∈ u.disliked_news →
      nid ∉ (react u nid n .dislike).1.disliked_news ∧
      nid ∉ (react u nid n .dislike).1.liked_news ∧
      (react u nid n .dislike).2.1.dislike_count = n.dislike_count - 1 ∧
      (react u nid n .dislike).2.1.like_count = n.like_count ∧
      Frame n (react u nid n .dislike).2.1 ∧
      (react u nid n .dislike).2.2 = .undisliked) := by
  refine ⟨?_, ?_, ?_, ?_, ?_, ?_⟩
  · intro h1 h2
    simp [react, like_news, h1, h2, Frame]
  · intro h1 h2
    simp [react, dislike_news, h1, h2, Frame]
  · intro h1
    have h2 : nid ∉ u.disliked_news := fun h2 => hmx ⟨h1, h2⟩
    simp [react, like_news, h1, h2, Frame, hl.mem_erase_iff]
  · intro h1
    have h2 : nid ∉ u.disliked_news := fun h2 => hmx ⟨h1, h2⟩
    simp [react, dislike_news, h1, h2, Frame, hl.mem_erase_iff]
  · intro h1
    have h2 : nid ∉ u.liked_news := fun h2 => hmx ⟨h2, h1⟩
    simp [react, like_news, h1, h2, Frame, hd.mem_erase_iff]
  · intro h1
    have h2 : nid ∉ u.liked_news := fun h2 => hmx ⟨h2, h1⟩
    simp [react, dislike_news, h1, h2, Frame, hd.mem_erase_iff]

/-- Witness for `react_follows_state_machine`: concrete user who liked item
3, item with counters (2, 5); both hypotheses hold and the `dislike`
transition is `switched_to_dislike`. -/
theorem react_follows_state_machine_witness :
    [(3 : Nat)].Nodup ∧ ([] : List Nat).Nodup ∧
      ¬((3 : Nat) ∈ [(3 : Nat)] ∧ (3 : Nat) ∈ ([] : List Nat)) ∧
      (react ⟨[3], []⟩ 3 ⟨none, none, none, none, 2, 5⟩ .dislike).2.2 =
        .switched_to_dislike := by
  refine ⟨by decide, by decide, by decide, ?_⟩
  exact (react_follows_state_machine ⟨[3], []⟩ 3 ⟨none, none, none, none, 2, 5⟩
    (by decide) (by decide) (by decide)).2.2.2.1 (by decide) |>.2.2.2.2.2

/-! ### Association-list model of a keyed table

A database table keyed by an integer primary key is an association list;
the primary-key constraint is the `KeysNodup` predicate. -/

/-- The news table: rows of `News` keyed by `News.id`. -/
abbrev Table := List (Nat × News)

/-- Primary-key lookup (`News.query.get`). -/
def lookupNews (t : Table) (k : Nat) : Option News :=
  (t.find? (fun p => p.1 == k)).map (fun p => p.2)

/-- In-place update of the row with key `k` (a SQL UPDATE on the primary
key). -/
def setNews (t : Table) (k : Nat) (n : News) : Table :=
  t.map (fun p => if p.1 == k then (p.1, n) else p)

/-- The primary-key column. -/
def keysOf (t : Table) : List Nat := t.map Prod.fst

/-- The primary-key constraint: keys are distinct. -/
def KeysNodup (t : Table) : Prop := (keysOf t).Nodup

instance : DecidablePred KeysNodup := fun t =>
  inferInstanceAs (Decidable ((keysOf t).Nodup))

theorem lookupNews_cons (p : Nat × News) (t : Table) (k : Nat) :
    lookupNews (p :: t) k = if p.1 = k then some p.2 else lookupNews t k := by
  by_cases h : p.1 = k
  · rw [if_pos h]
    unfold lookupNews
    rw [List.find?_cons_of_pos _ (by simpa using h)]
    rfl
  · rw [if_neg h]
    unfold lookupNews
    rw [List.find?_cons_of_neg _ (by simpa using h)]

theorem setNews_cons (p : Nat × News) (t : Table) (k : Nat) (n : News) :
    setNews (p :: t) k n = (if p.1 = k then (p.1, n) else p) :: setNews t k n := by
  by_cases h : p.1 = k <;> simp [setNews, h]

theorem keysOf_cons (p : Nat × News) (t : Table) :
    keysOf (p :: t) = p.1 :: keysOf t := rfl

theorem keysNodup_cons {p : Nat × News} {t : Table} (h : KeysNodup (p :: t)) :
    p.1 ∉ keysOf t ∧ KeysNodup t := by
  have := h
  rw [KeysNodup, keysOf_cons, List.nodup_cons] at this
  exact this

theorem lookupNews_eq_none {t : Table} {k : Nat} :
    lookupNews t k = none ↔ k ∉ keysOf t := by
  induction t with
  | nil => simp [lookupNews, keysOf]
  | cons p t ih =>
    rw [lookupNews_cons, keysOf_cons]
    by_cases h : p.1 = k
    · simp [h]
    · simp [h, Ne.symm h, ih]

theorem lookupNews_isSome {t : Table} {k : Nat} (h : k ∈ keysOf t) :
    ∃ n, lookupNews t k = some n := by
  cases hl : lookupNews t k with
  | none => exact absurd (lookupNews_eq_none.mp hl) (by simpa using h)
  | some n => exact ⟨n, rfl⟩

theorem mem_of_lookupNews {t : Table} {k : Nat} {n : News}
    (h : lookupNews t k = some n) : (k, n) ∈ t := by
  induction t with
  | nil => simp [lookupNews] at h
  | cons p t ih =>
    rw [lookupNews_cons] at h
    by_cases hp : p.1 = k
    · rw [if_pos hp] at h
      have hpe : p = (k, n) := by
        obtain ⟨p1, p2⟩ := p
        simp only at hp
        simp only [Option.some_inj] at h
        rw [hp, h]
      exact List.mem_cons.mpr (Or.inl hpe.symm)
    · rw [if_neg hp] at h
      exact List.mem_cons_of_mem _ (ih h)

theorem lookupNews_of_mem {t : Table} {k : Nat} {n : News}
    (hk : KeysNodup t) (h : (k, n) ∈ t) : lookupNews t k = some n := by
  induction t with
  | nil => simp at h
  | cons p t ih =>
    rw [lookupNews_cons]
    rcases List.mem_cons.mp h with h | h
    · rw [← h]
      simp
    · have hmem : k ∈ keysOf t := by
        simpa [keysOf] using List.mem_map_of_mem Prod.fst h
      have hp : p.1 ≠ k := fun he => (keysNodup_cons hk).1 (he ▸ hmem)
      rw [if_neg hp]
      exact ih (keysNodup_cons hk).2 h

theorem keysOf_setNews (t : Table) (k : Nat) (n : News) :
    keysOf (setNews t k n) = keysOf t := by
  induction t with
  | nil => rfl
  | cons p t ih =>
    rw [setNews_cons, keysOf_cons, keysOf_cons, ih]
    by_cases h : p.1 = k <;> simp [h]

theorem lookupNews_setNews_self {t : Table} {k : Nat} (n : News)
    (h : ∃ x, lookupNews t k = some x) :
    lookupNews (setNews t k n) k = some n := by
  induction t with
  | nil => simp [lookupNews] at h
  | cons p t ih =>
    rw [setNews_cons]
    by_cases hp : p.1 = k
    · rw [if_pos hp, lookupNews_cons, if_pos hp]
    · rw [if_neg hp, lookupNews_cons, if_neg hp]
      rw [lookupNews_cons, if_neg hp] at h
      exact ih h

theorem lookupNews_setNews_ne {t : Table} {k k' : Nat} (n : News) (h : k' ≠ k) :
    lookupNews (setNews t k n) k' = lookupNews t k' := by
  induction t with
  | nil => simp [lookupNews, setNews]
  | cons p t ih =>
    rw [setNews_cons]
    by_cases hp : p.1 = k
    · have hp' : p.1 ≠ k' := fun he => h (by rw [← he, hp])
      rw [if_pos hp]
      simp [lookupNews_cons, hp', ih]
    · rw [if_neg hp]
      by_cases hp' : p.1 = k'
      · simp [lookupNews_cons, hp']
      · simp [lookupNews_cons, hp', ih]

/-! ### Global reaction state (claims C2, C3) -/

/-- The mutable state touched by the reaction endpoints: every user's two
membership collections (users addressed by position) and the news table. -/
structure AppState where
  users : List UserState
  newsTable : Table
deriving Repr, DecidableEq

/-- One HTTP reaction request: the session user `uidx`, the routed item id
`nid` and the endpoint.  As in the source, an unknown user or item causes
no mutation (`get_or_404` aborts the request before any write). -/
def reactStep (s : AppState) (uidx nid : Nat) (intent : Intent) : AppState :=
  match s.users.get? uidx, lookupNews s.newsTable nid with
  | some u, some n =>
    let r := react u nid n intent
    { users := s.users.set uidx r.1, newsTable := setNews s.newsTable nid r.2.1 }
  | _, _ => s

/-- A sequence of reaction requests, applied in order. -/
def runReacts (ops : List (Nat × Nat × Intent)) (s : AppState) : AppState :=
  ops.foldl (fun s op => reactStep s op.1 op.2.1 op.2.2) s

/-- Well-formedness of one user's reaction collections as the database
stores them: both duplicate-free (the association tables are keyed by the
(user, news) pair) and mutually exclusive. -/
def UserOK (u : UserState) : Prop :=
  u.liked_news.Nodup ∧ u.disliked_news.Nodup ∧
    ∀ k : Nat, ¬(k ∈ u.liked_news ∧ k ∈ u.disliked_news)

/-- The mutual-exclusion invariant over the whole state. -/
def ExclInv (s : AppState) : Prop := ∀ u ∈ s.users, UserOK u

instance : DecidablePred UserOK := fun u =>
  decidable_of_iff
    (u.liked_news.Nodup ∧ u.disliked_news.Nodup ∧
      ∀ k ∈ u.liked_news, k ∉ u.disliked_news)
    ⟨fun h => ⟨h.1, h.2.1, fun k hk => h.2.2 k hk.1 hk.2⟩,
     fun h => ⟨h.1, h.2.1, fun k h1 h2 => h.2.2 k ⟨h1, h2⟩⟩⟩

instance : DecidablePred ExclInv := fun s =>
  inferInstanceAs (Decidable (∀ u ∈ s.users, UserOK u))

theorem userOK_like (u : UserState) (nid : Nat) (n : News) (h : UserOK u) :
    UserOK (like_news u nid n).1 := by
  obtain ⟨hl, hd, hx⟩ := h
  by_cases h1 : nid ∈ u.liked_news
  · simp only [like_news, if_pos h1]
    refine ⟨hl.erase nid, hd, fun k hk => ?_⟩
    exact hx k ⟨List.mem_of_mem_erase hk.1, hk.2⟩
  · by_cases h2 : nid ∈ u.disliked_news
    · simp only [like_news, if_neg h1, if_pos h2]
      refine ⟨?_, hd.erase nid, fun k hk => ?_⟩
      · simpa [List.nodup_append, hl] using h1
      · rcases List.mem_append.mp hk.1 with hk1 | hk1
        · exact hx k ⟨hk1, List.mem_of_mem_erase hk.2⟩
        · have hknid : k = nid := by simpa using hk1
          subst hknid
          exact (hd.mem_erase_iff.mp hk.2).1 rfl
    · simp only [like_news, if_neg h1, if_neg h2]
      refine ⟨?_, hd, fun k hk => ?_⟩
      · simpa [List.nodup_append, hl] using h1
      · rcases List.mem_append.mp hk.1 with hk1 | hk1
        · exact hx k ⟨hk1, hk.2⟩
        · have hknid : k = nid := by simpa using hk1
          subst hknid
          exact h2 hk.2

theorem userOK_dislike (u : UserState) (nid : Nat) (n : News) (h : UserOK u) :
    UserOK (dislike_news u nid n).1 := by
  obtain ⟨hl, hd, hx⟩ := h
  by_cases h1 : nid ∈ u.disliked_news
  · simp only [dislike_news, if_pos h1]
    refine ⟨hl, hd.erase nid, fun k hk => ?_⟩
    exact hx k ⟨hk.1, List.mem_of_mem_erase hk.2⟩
  · by_cases h2 : nid ∈ u.liked_news
    · simp only [dislike_news, if_neg h1, if_pos h2]
      refine ⟨hl.erase nid, ?_, fun k hk => ?_⟩
      · simpa [List.nodup_append, hd] using h1
      · rcases List.mem_append.mp hk.2 with hk2 | hk2
        · exact hx k ⟨List.mem_of_mem_erase hk.1, hk2⟩
        · have hknid : k = nid := by simpa using hk2
          subst hknid
          exact (hl.mem_erase_iff.mp hk.1).1 rfl
    · simp only [dislike_news, if_neg h1, if_neg h2]
      refine ⟨hl, ?_, fun k hk => ?_⟩
      · simpa [List.nodup_append, hd] using h1
      · rcases List.mem_append.mp hk.2 with hk2 | hk2
        · exact hx k ⟨hk.1, hk2⟩
        · have hknid : k = nid := by simpa using hk2
          subst hknid
          exact h2 hk.1

theorem userOK_react (u : UserState) (nid : Nat) (n : News) (intent : Intent)
    (h : UserOK u) : UserOK (react u nid n intent).1 := by
  cases intent
  · exact userOK_like u nid n h
  · exact userOK_dislike u nid n h

theorem exclInv_reactStep {s : AppState} (uidx nid : Nat) (intent : Intent)
    (h : ExclInv s) : ExclInv (reactStep s uidx nid intent) := by
  unfold reactStep
  cases hu : s.users.get? uidx with
  | none => exact h
  | some u =>
    cases hn : lookupNews s.newsTable nid with
    | none => exact h
    | some n =>
      intro v hv
      rcases List.mem_or_eq_of_mem_set hv with hv | hv
      · exact h v hv
      · subst hv
        exact userOK_react u nid n intent (h u (s.users.get?_mem hu))

/-- C2.  Starting from any state satisfying the database's invariants
(per-user duplicate-free, mutually exclusive membership collections),
after any sequence of react (like/dislike) requests by any users, every
item is a member of at most one of each user's two collections — each
individual `reactStep` preserves the invariant (the singleton sequence is
an instance). -/
theorem react_preserves_mutual_exclusion (ops : List (Nat × Nat × Intent))
    (s : AppState) (h : ExclInv s) : ExclInv (runReacts ops s) := by
  induction ops generalizing s with
  | nil => exact h
  | cons op ops ih => exact ih _ (exclInv_reactStep op.1 op.2.1 op.2.2 h)

/-- Witness for `react_preserves_mutual_exclusion`: two users, one item,
a like followed by a switch to dislike. -/
theorem react_preserves_mutual_exclusion_witness :
    ExclInv ⟨[⟨[], []⟩, ⟨[1], []⟩], [(1, ⟨none, none, none, none, 1, 0⟩)]⟩ ∧
      ExclInv (runReacts [(0, 1, .like), (1, 1, .dislike)]
        ⟨[⟨[], []⟩, ⟨[1], []⟩], [(1, ⟨none, none, none, none, 1, 0⟩)]⟩) := by
  refine ⟨by decide, ?_⟩
  exact react_preserves_mutual_exclusion [(0, 1, .like), (1, 1, .dislike)]
    ⟨[⟨[], []⟩, ⟨[1], []⟩], [(1, ⟨none, none, none, none, 1, 0⟩)]⟩ (by decide)

/-! ### Counter consistency (claim C3)

The counters on a news row are maintained state; across react calls they
track the number of users holding the item in the corresponding
collection. -/

/-- Number of liked-memberships of item `nid` across all users, as an
integer. -/
def likeTally (users : List UserState) (nid : Nat) : Int :=
  (users.map (fun u => (u.liked_news.count nid : Int))).sum

/-- Number of disliked-memberships of item `nid` across all users. -/
def dislikeTally (users : List UserState) (nid : Nat) : Int :=
  (users.map (fun u => (u.disliked_news.count nid : Int))).sum

/-- The inductive invariant for item `i`: valid primary keys, and if the
item is stored its counters equal the membership tallies. -/
def ItemInv (i : Nat) (s : AppState) : Prop :=
  KeysNodup s.newsTable ∧
    ∀ n, lookupNews s.newsTable i = some n →
      n.like_count = likeTally s.users i ∧ n.dislike_count = dislikeTally s.users i

theorem sum_map_set {α : Type} (f : α → Int) (l : List α) (i : Nat) (x a : α)
    (h : l.get? i = some a) :
    ((l.set i x).map f).sum = (l.map f).sum + f x - f a := by
  induction l generalizing i with
  | nil => simp at h
  | cons b l ih =>
    cases i with
    | zero =>
      have hb : b = a := by simpa using h
      subst hb
      simp only [List.set, List.map_cons, List.sum_cons]
      ring
    | succ i =>
      have h' : l.get? i = some a := by simpa using h
      simp only [List.set, List.map_cons, List.sum_cons, ih i h']
      ring

theorem likeTally_set {users : List UserState} {uidx : Nat} {u : UserState}
    (v : UserState) (nid : Nat) (h : users.get? uidx = some u) :
    likeTally (users.set uidx v) nid =
      likeTally users nid + (v.liked_news.count nid : Int) -
        (u.liked_news.count nid : Int) :=
  sum_map_set _ users uidx v u h

theorem dislikeTally_set {users : List UserState} {uidx : Nat} {u : UserState}
    (v : UserState) (nid : Nat) (h : users.get? uidx = some u) :
    dislikeTally (users.set uidx v) nid =
      dislikeTally users nid + (v.disliked_news.count nid : Int) -
        (u.disliked_news.count nid : Int) :=
  sum_map_set _ users uidx v u h

theorem sum_int_nonneg : ∀ l : List Int, (∀ x ∈ l, 0 ≤ x) → 0 ≤ l.sum
  | [], _ => le_refl 0
  | x :: l, h => by
    rw [List.sum_cons]
    have h1 := h x (List.mem_cons_self x l)
    have h2 := sum_int_nonneg l (fun y hy => h y (List.mem_cons_of_mem x hy))
    omega

theorem likeTally_nonneg (users : List UserState) (nid : Nat) :
    0 ≤ likeTally users nid := by
  refine sum_int_nonneg _ (fun x hx => ?_)
  obtain ⟨u, _, rfl⟩ := List.mem_map.mp hx
  exact Int.ofNat_nonneg _

theorem dislikeTally_nonneg (users : List UserState) (nid : Nat) :
    0 ≤ dislikeTally users nid := by
  refine sum_int_nonneg _ (fun x hx => ?_)
  obtain ⟨u, _, rfl⟩ := List.mem_map.mp hx
  exact Int.ofNat_nonneg _

theorem count_erase_self_int {l : List Nat} {a : Nat} (h : a ∈ l) :
    (((l.erase a).count a : Nat) : Int) = (l.count a : Int) - 1 := by
  have h1 : 0 < l.count a := List.count_pos_iff.mpr h
  have h2 := List.count_erase_self (a := a) (l := l)
  omega

theorem count_append_self_int (l : List Nat) (a : Nat) :
    (((l ++ [a]).count a : Nat) : Int) = (l.count a : Int) + 1 := by
  simp [List.count_append]

theorem count_erase_ne (l : List Nat) {a b : Nat} (h : b ≠ a) :
    (l.erase a).count b = l.count b :=
  List.count_erase_of_ne h l

theorem count_append_ne (l : List Nat) {a b : Nat} (h : b ≠ a) :
    (l ++ [a]).count b = l.count b := by
  simp [List.count_append, List.count_singleton', h, Ne.symm h]

theorem itemInv_reactStep {i : Nat} {s : AppState} (uidx nid : Nat)
    (intent : Intent) (h : ItemInv i s) : ItemInv i (reactStep s uidx nid intent) := by
  unfold reactStep
  cases hu : s.users.get? uidx with
  | none => exact h
  | some u =>
    cases hn : lookupNews s.newsTable nid with
    | none => exact h
    | some n =>
      obtain ⟨hk, hI⟩ := h
      refine ⟨?_, ?_⟩
      · show KeysNodup (setNews s.newsTable nid _)
        unfold KeysNodup
        rw [keysOf_setNews]
        exact hk
      · intro m hm
        simp only at hm
        have hLset := likeTally_set (react u nid n intent).1 i hu
        have hDset := dislikeTally_set (react u nid n intent).1 i hu
        by_cases hi : i = nid
        · subst hi
          rw [lookupNews_setNews_self _ ⟨n, hn⟩, Option.some_inj] at hm
          subst hm
          obtain ⟨hL, hD⟩ := hI n hn
          cases intent
          · by_cases h1 : i ∈ u.liked_news
            · simp only [react, like_news, if_pos h1] at hLset hDset ⊢
              rw [hLset, hDset]
              have := count_erase_self_int h1
              refine ⟨?_, ?_⟩ <;> simp <;> omega
            · by_cases h2 : i ∈ u.disliked_news
              · simp only [react, like_news, if_neg h1, if_pos h2] at hLset hDset ⊢
                rw [hLset, hDset]
                have ha := count_append_self_int u.liked_news i
                have he := count_erase_self_int h2
                refine ⟨?_, ?_⟩ <;> simp <;> omega
              · simp only [react, like_news, if_neg h1, if_neg h2] at hLset hDset ⊢
                rw [hLset, hDset]
                have ha := count_append_self_int u.liked_news i
                refine ⟨?_, ?_⟩ <;> simp <;> omega
          · by_cases h1 : i ∈ u.disliked_news
            · simp only [react, dislike_news, if_pos h1] at hLset hDset ⊢
              rw [hLset, hDset]
              have := count_erase_self_int h1
              refine ⟨?_, ?_⟩ <;> simp <;> omega
            · by_cases h2 : i ∈ u.liked_news
              · simp only [react, dislike_news, if_neg h1, if_pos h2] at hLset hDset ⊢
                rw [hLset, hDset]
                have ha := count_append_self_int u.disliked_news i
                have he := count_erase_self_int h2
                refine ⟨?_, ?_⟩ <;> simp <;> omega
              · simp only [react, dislike_news, if_neg h1, if_neg h2] at hLset hDset ⊢
                rw [hLset, hDset]
                have ha := count_append_self_int u.disliked_news i
                refine ⟨?_, ?_⟩ <;> simp <;> omega
        · rw [lookupNews_setNews_ne _ hi] at hm
          obtain ⟨hL, hD⟩ := hI m hm
          rw [hL, hD, hLset, hDset]
          cases intent
          · by_cases h1 : nid ∈ u.liked_news
            · simp only [react, like_news, if_pos h1]
              rw [count_erase_ne _ hi]
              constructor <;> omega
            · by_cases h2 : nid ∈ u.disliked_news
              · simp only [react, like_news, if_neg h1, if_pos h2]
                rw [count_erase_ne _ hi, count_append_ne _ hi]
                constructor <;> omega
              · simp only [react, like_news, if_neg h1, if_neg h2]
                rw [count_append_ne _ hi]
                constructor <;> omega
          · by_cases h1 : nid ∈ u.disliked_news
            · simp only [react, dislike_news, if_pos h1]
              rw [count_erase_ne _ hi]
              constructor <;> omega
            · by_cases h2 : nid ∈ u.liked_news
              · simp only [react, dislike_news, if_neg h1, if_pos h2]
                rw [count_erase_ne _ hi, count_append_ne _ hi]
                constructor <;> omega
              · simp only [react, dislike_news, if_neg h1, if_neg h2]
                rw [count_append_ne _ hi]
                constructor <;> omega

theorem itemInv_runReacts {i : Nat} (ops : List (Nat × Nat × Intent))
    {s : AppState} (h : ItemInv i s) : ItemInv i (runReacts ops s) := by
  induction ops generalizing s with
  | nil => exact h
  | cons op ops ih => exact ih (itemInv_reactStep op.1 op.2.1 op.2.2 h)

/-- C3.  For every item `i` and every sequence of react requests (by any
users), starting from a state with valid primary keys where `i`'s
`like_count` and `dislike_count` are 0 and no user has `i` in either
membership collection, both counters of `i` are non-negative after every
call (the theorem quantifies over all request sequences, hence over every
prefix); in particular a toggle-off by a single user acting alone never
drives a counter below zero. -/
theorem counters_nonneg (i : Nat) (s : AppState) (ops : List (Nat × Nat × Intent))
    (hk : KeysNodup s.newsTable)
    (hzero : ∀ n, lookupNews s.newsTable i = some n →
      n.like_count = 0 ∧ n.dislike_count = 0)
    (hfree : ∀ u ∈ s.users, i ∉ u.liked_news ∧ i ∉ u.disliked_news) :
    ∀ n, lookupNews (runReacts ops s).newsTable i = some n →
      0 ≤ n.like_count ∧ 0 ≤ n.dislike_count := by
  have hL0 : likeTally s.users i = 0 := by
    refine List.sum_eq_zero (fun x hx => ?_)
    obtain ⟨u, hu, rfl⟩ := List.mem_map.mp hx
    simp [List.count_eq_zero.mpr (hfree u hu).1]
  have hD0 : dislikeTally s.users i = 0 := by
    refine List.sum_eq_zero (fun x hx => ?_)
    obtain ⟨u, hu, rfl⟩ := List.mem_map.mp hx
    simp [List.count_eq_zero.mpr (hfree u hu).2]
  have hinv : ItemInv i s := by
    refine ⟨hk, fun n hn => ?_⟩
    rw [hL0, hD0]
    exact hzero n hn
  have hinv' := itemInv_runReacts ops hinv
  intro n hn
  obtain ⟨hL, hD⟩ := hinv'.2 n hn
  rw [hL, hD]
  exact ⟨likeTally_nonneg _ _, dislikeTally_nonneg _ _⟩

/-- Witness for `counters_nonneg`: one user running a
like / dislike / dislike sequence on item 1; counters stay non-negative. -/
theorem counters_nonneg_witness :
    KeysNodup [(1, (⟨none, none, none, none, 0, 0⟩ : News))] ∧
      ∀ n, lookupNews (runReacts [(0, 1, .like), (0, 1, .dislike), (0, 1, .dislike)]
          ⟨[⟨[], []⟩], [(1, ⟨none, none, none, none, 0, 0⟩)]⟩).newsTable 1 = some n →
        0 ≤ n.like_count ∧ 0 ≤ n.dislike_count := by
  refine ⟨by decide, ?_⟩
  exact counters_nonneg 1 ⟨[⟨[], []⟩], [(1, ⟨none, none, none, none, 0, 0⟩)]⟩
    [(0, 1, .like), (0, 1, .dislike), (0, 1, .dislike)]
    (by decide)
    (fun n hn => by
      injection hn with hn
      rw [← hn]
      exact ⟨rfl, rfl⟩)
    (by decide)

/-! ### Feed synchronizer (`src/fetch_hackernews.py`)

The upstream feed is an environment parameter: `idx` is the result of the
index fetch (`none` models a failed `requests.get` / `RequestException`)
and `detail id` the result of the per-item fetch.  `fetch_hackernews`
itself is deterministic given those. -/

/-- The fields of one upstream item used by the synchronizer
(`news_data["id"]` and the four `news_data.get(...)` fields). -/
structure ItemData where
  id : Nat
  by_author : Option String
  time : Option Int
  title : Option String
  url : Option String
deriving Repr, DecidableEq

/-- One upsert (src/fetch_hackernews.py lines 44-58): look the row up by
`news_data["id"]`; create it with default counters if absent; in both
cases overwrite the four feed fields. -/
def upsertItem (t : Table) (d : ItemData) : Table :=
  match lookupNews t d.id with
  | some n => setNews t d.id
      { n with by_author := d.by_author, time := d.time, title := d.title, url := d.url }
  | none => t ++ [(d.id, ⟨d.by_author, d.time, d.title, d.url, 0, 0⟩)]

/-- The per-item loop (src/fetch_hackernews.py lines 34-58): a failed
detail fetch (`RequestException`, modelled `none`) skips that id via
`continue`; a successful one is upserted. -/
def runUpserts (ids : List Nat) (detail : Nat → Option ItemData) (t : Table) : Table :=
  ids.foldl (fun acc nid =>
    match detail nid with
    | none => acc
    | some d => upsertItem acc d) t

/-- SQL `ORDER BY time ASC` on a nullable column: NULL sorts first. -/
def timeLT : Option Int → Option Int → Prop
  | none, some _ => True
  | none, none => False
  | some _, none => False
  | some a, some b => a < b

instance : DecidableRel timeLT := fun a b =>
  match a, b with
  | none, some _ => .isTrue trivial
  | none, none => .isFalse id
  | some _, none => .isFalse id
  | some a, some b => inferInstanceAs (Decidable (a < b))

/-- The prune ordering: by timestamp ascending; ties broken by primary key
(SQLite scans by rowid, and `News.id` is the integer primary key, hence the
rowid; spec §4.2 calls this stable tie-break implementation-defined). -/
def entryLE (p q : Nat × News) : Prop :=
  timeLT p.2.time q.2.time ∨ (p.2.time = q.2.time ∧ p.1 ≤ q.1)

instance : DecidableRel entryLE := fun p q =>
  inferInstanceAs (Decidable (_ ∨ _))

theorem timeLT_trichot (a b : Option Int) : timeLT a b ∨ timeLT b a ∨ a = b := by
  match a, b with
  | none, none => exact Or.inr (Or.inr rfl)
  | none, some x => exact Or.inl trivial
  | some x, none => exact Or.inr (Or.inl trivial)
  | some x, some y =>
    rcases lt_trichotomy x y with h | h | h
    · exact Or.inl h
    · exact Or.inr (Or.inr (by rw [h]))
    · exact Or.inr (Or.inl h)

theorem timeLT_trans {a b c : Option Int} (h1 : timeLT a b) (h2 : timeLT b c) :
    timeLT a c := by
  match a, b, c with
  | none, _, some _ => trivial
  | none, none, none => exact h1.elim
  | none, some _, none => exact h2.elim
  | some _, none, _ => exact h1.elim
  | some _, some _, none => exact h2.elim
  | some x, some y, some z => exact lt_trans (h1 : x < y) (h2 : y < z)

theorem timeLT_asymm {a b : Option Int} (h1 : timeLT a b) (h2 : timeLT b a) : False := by
  match a, b with
  | none, none => exact h1
  | none, some _ => exact h2
  | some _, none => exact h1
  | some x, some y => exact lt_asymm (h1 : x < y) (h2 : y < x)

theorem timeLT_irrefl {a : Option Int} (h : timeLT a a) : False :=
  timeLT_asymm h h

instance : IsTotal (Nat × News) entryLE :=
  ⟨fun p q => by
    rcases timeLT_trichot p.2.time q.2.time with h | h | h
    · exact Or.inl (Or.inl h)
    · exact Or.inr (Or.inl h)
    · rcases Nat.le_total p.1 q.1 with h' | h'
      · exact Or.inl (Or.inr ⟨h, h'⟩)
      · exact Or.inr (Or.inr ⟨h.symm, h'⟩)⟩

instance : IsTrans (Nat × News) entryLE :=
  ⟨fun p q r h1 h2 => by
    rcases h1 with h1 | ⟨he1, hl1⟩
    · rcases h2 with h2 | ⟨he2, hl2⟩
      · exact Or.inl (timeLT_trans h1 h2)
      · exact Or.inl (he2 ▸ h1)
    · rcases h2 with h2 | ⟨he2, hl2⟩
      · exact Or.inl (he1 ▸ h2)
      · exact Or.inr ⟨he1.trans he2, Nat.le_trans hl1 hl2⟩⟩

theorem entryLE_antisymm {p q : Nat × News} (h1 : entryLE p q) (h2 : entryLE q p) :
    p.2.time = q.2.time ∧ p.1 = q.1 := by
  rcases h1 with h1 | ⟨he1, hl1⟩
  · rcases h2 with h2 | ⟨he2, hl2⟩
    · exact absurd h2 (fun h => timeLT_asymm h1 h)
    · exact absurd (he2 ▸ h1) timeLT_irrefl
  · rcases h2 with h2 | ⟨he2, hl2⟩
    · exact absurd (he1 ▸ h2) timeLT_irrefl
    · exact ⟨he1, Nat.le_antisymm hl1 hl2⟩

/-- `News.query.order_by(News.time.asc())` as a deterministic sort. -/
def sortByTime (t : Table) : Table := List.insertionSort entryLE t

/-- The retention prune (src/fetch_hackernews.py lines 62-72): if more than
150 rows exist, delete the `count - 150` oldest-by-timestamp rows. -/
def prune (t : Table) : Table :=
  if 150 < t.length then
    t.filter (fun p => decide (p.1 ∉ keysOf ((sortByTime t).take (t.length - 150))))
  else t

/-- `fetch_hackernews()`: abort with no mutation if the index fetch fails;
otherwise upsert the first 50 ids' details (failed details skipped), then
prune. -/
def fetch_hackernews (idx : Option (List Nat)) (detail : Nat → Option ItemData)
    (t : Table) : Table :=
  match idx with
  | none => t
  | some news_ids => prune (runUpserts (news_ids.take 50) detail t)

/-- The stored row carries exactly the upstream item's four feed fields. -/
def Agrees (n : News) (d : ItemData) : Prop :=
  n.by_author = d.by_author ∧ n.time = d.time ∧ n.title = d.title ∧ n.url = d.url

instance : ∀ n d, Decidable (Agrees n d) := fun n d =>
  inferInstanceAs (Decidable (_ ∧ _ ∧ _ ∧ _))

theorem runUpserts_cons (id : Nat) (ids : List Nat) (detail : Nat → Option ItemData)
    (t : Table) :
    runUpserts (id :: ids) detail t =
      runUpserts ids detail
        (match detail id with
         | none => t
         | some d => upsertItem t d) := rfl

theorem runUpserts_cons_none {a : Nat} {ids : List Nat} {detail : Nat → Option ItemData}
    {t : Table} (h : detail a = none) :
    runUpserts (a :: ids) detail t = runUpserts ids detail t := by
  rw [runUpserts_cons, h]

theorem runUpserts_cons_some {a : Nat} {ids : List Nat} {detail : Nat → Option ItemData}
    {t : Table} {d : ItemData} (h : detail a = some d) :
    runUpserts (a :: ids) detail t = runUpserts ids detail (upsertItem t d) := by
  rw [runUpserts_cons, h]

theorem lookupNews_append_some {t : Table} (s : Table) {k : Nat} {n : News}
    (h : lookupNews t k = some n) : lookupNews (t ++ s) k = some n := by
  induction t with
  | nil => simp [lookupNews] at h
  | cons p t ih =>
    rw [List.cons_append, lookupNews_cons]
    rw [lookupNews_cons] at h
    by_cases hp : p.1 = k
    · rwa [if_pos hp] at h ⊢
    · rw [if_neg hp] at h ⊢
      exact ih h

theorem lookupNews_append_none {t : Table} (s : Table) {k : Nat}
    (h : lookupNews t k = none) : lookupNews (t ++ s) k = lookupNews s k := by
  induction t with
  | nil => simp
  | cons p t ih =>
    rw [List.cons_append, lookupNews_cons]
    rw [lookupNews_cons] at h
    by_cases hp : p.1 = k
    · rw [if_pos hp] at h
      exact absurd h (by simp)
    · rw [if_neg hp] at h ⊢
      exact ih h

/-- C7.  If the index fetch fails (`requests.get` raising, or a malformed
response: both leave the loop unreached), the pass performs no store
mutation at all: no row inserted, updated or deleted. -/
theorem index_failure_no_mutation (detail : Nat → Option ItemData) (t : Table) :
    fetch_hackernews none detail t = t := rfl

/-- Frame property of one upsert, used both for claim C6 and as a building
block elsewhere: an existing row keeps its counters and takes the four
upstream fields, every other row is untouched; an absent id is inserted
with zero counters. -/
theorem upsert_frame_core (t : Table) (d : ItemData) :
    (∀ n, lookupNews t d.id = some n →
      (∃ m, lookupNews (upsertItem t d) d.id = some m ∧
        m.by_author = d.by_author ∧ m.time = d.time ∧ m.title = d.title ∧
        m.url = d.url ∧ m.like_count = n.like_count ∧
        m.dislike_count = n.dislike_count) ∧
      ∀ k, k ≠ d.id → lookupNews (upsertItem t d) k = lookupNews t k) ∧
    (lookupNews t d.id = none →
      upsertItem t d = t ++ [(d.id, ⟨d.by_author, d.time, d.title, d.url, 0, 0⟩)] ∧
      lookupNews (upsertItem t d) d.id =
        some ⟨d.by_author, d.time, d.title, d.url, 0, 0⟩) := by
  constructor
  · intro n hn
    have hu : upsertItem t d = setNews t d.id
        { n with by_author := d.by_author, time := d.time, title := d.title,
                 url := d.url } := by
      unfold upsertItem
      rw [hn]
    constructor
    · have hl := lookupNews_setNews_self (t := t) (k := d.id)
        { n with by_author := d.by_author, time := d.time, title := d.title, url := d.url }
        ⟨n, hn⟩
      rw [← hu] at hl
      exact ⟨_, hl, rfl, rfl, rfl, rfl, rfl, rfl⟩
    · intro k hk
      rw [hu]
      exact lookupNews_setNews_ne _ hk
  · intro hn
    have hu : upsertItem t d = t ++ [(d.id, ⟨d.by_author, d.time, d.title, d.url, 0, 0⟩)] := by
      unfold upsertItem
      rw [hn]
    refine ⟨hu, ?_⟩
    rw [hu, lookupNews_append_none _ hn, lookupNews_cons]
    simp

/-- C6.  Upserting an item whose external id is already stored overwrites
only the four mutable fields (author, timestamp, title, url) taken from
the upstream item, leaves `like_count` and `dislike_count` unchanged, and
leaves every other row's lookup unchanged; for an absent external id a new
row with zero counters is appended. -/
theorem upsert_frame (t : Table) (d : ItemData) :
    (∀ n, lookupNews t d.id = some n →
      (∃ m, lookupNews (upsertItem t d) d.id = some m ∧
        m.by_author = d.by_author ∧ m.time = d.time ∧ m.title = d.title ∧
        m.url = d.url ∧ m.like_count = n.like_count ∧
        m.dislike_count = n.dislike_count) ∧
      ∀ k, k ≠ d.id → lookupNews (upsertItem t d) k = lookupNews t k) ∧
    (lookupNews t d.id = none →
      upsertItem t d = t ++ [(d.id, ⟨d.by_author, d.time, d.title, d.url, 0, 0⟩)] ∧
      lookupNews (upsertItem t d) d.id =
        some ⟨d.by_author, d.time, d.title, d.url, 0, 0⟩) :=
  upsert_frame_core t d

/-- Witness for `upsert_frame`: updating id 5 keeps its counters (3, 1) and
leaves id 6 alone. -/
theorem upsert_frame_witness :
    lookupNews [(5, (⟨some "o", some 1, some "t", some "u", 3, 1⟩ : News)),
        (6, ⟨none, none, none, none, 0, 0⟩)] 5 =
      some ⟨some "o", some 1, some "t", some "u", 3, 1⟩ ∧
    (∃ m, lookupNews (upsertItem [(5, ⟨some "o", some 1, some "t", some "u", 3, 1⟩),
        (6, ⟨none, none, none, none, 0, 0⟩)] ⟨5, some "n", some 2, some "t2", some "u2"⟩) 5 =
        some m ∧
      m.by_author = some "n" ∧ m.time = some 2 ∧ m.title = some "t2" ∧
      m.url = some "u2" ∧ m.like_count = 3 ∧ m.dislike_count = 1) := by
  refine ⟨by decide, ?_⟩
  exact ((upsert_frame [(5, ⟨some "o", some 1, some "t", some "u", 3, 1⟩),
      (6, ⟨none, none, none, none, 0, 0⟩)] ⟨5, some "n", some 2, some "t2", some "u2"⟩).1
    ⟨some "o", some 1, some "t", some "u", 3, 1⟩ (by decide)).1

theorem lookupNews_upsertItem_self (t : Table) (d : ItemData) :
    ∃ n, lookupNews (upsertItem t d) d.id = some n ∧ Agrees n d := by
  cases hn : lookupNews t d.id with
  | some n =>
    obtain ⟨⟨m, hm, h1, h2, h3, h4, _, _⟩, _⟩ := (upsert_frame_core t d).1 n hn
    exact ⟨m, hm, h1, h2, h3, h4⟩
  | none =>
    obtain ⟨_, hm⟩ := (upsert_frame_core t d).2 hn
    exact ⟨_, hm, rfl, rfl, rfl, rfl⟩

theorem lookupNews_upsertItem_ne (t : Table) (d : ItemData) {k : Nat}
    (hk : k ≠ d.id) : lookupNews (upsertItem t d) k = lookupNews t k := by
  cases hn : lookupNews t d.id with
  | some n => exact ((upsert_frame_core t d).1 n hn).2 k hk
  | none =>
    rw [((upsert_frame_core t d).2 hn).1]
    cases hl : lookupNews t k with
    | some m => exact lookupNews_append_some _ hl
    | none =>
      rw [lookupNews_append_none _ hl, lookupNews_cons]
      simp [Ne.symm hk, lookupNews]

theorem runUpserts_preserves_lookup (ids : List Nat) (detail : Nat → Option ItemData)
    (t : Table) {k : Nat} {n : News}
    (hdet : ∀ id d, detail id = some d → d.id = id)
    (hk : k ∉ ids) (h : lookupNews t k = some n) :
    lookupNews (runUpserts ids detail t) k = some n := by
  induction ids generalizing t with
  | nil => exact h
  | cons a ids ih =>
    rw [runUpserts_cons]
    have hka : k ≠ a := fun he => hk (he ▸ List.mem_cons_self a ids)
    have hk' : k ∉ ids := fun hm => hk (List.mem_cons_of_mem a hm)
    cases hd : detail a with
    | none => exact ih _ hk' h
    | some d =>
      refine ih _ hk' ?_
      rw [lookupNews_upsertItem_ne _ _ (by rw [hdet a d hd]; exact hka)]
      exact h

theorem runUpserts_skips_failures (ids : List Nat) (detail : Nat → Option ItemData)
    (t : Table) :
    runUpserts ids detail t =
      runUpserts (ids.filter (fun id => (detail id).isSome)) detail t := by
  induction ids generalizing t with
  | nil => rfl
  | cons a ids ih =>
    rw [runUpserts_cons]
    cases hd : detail a with
    | none =>
      rw [List.filter_cons_of_neg (by simp [hd])]
      exact ih t
    | some d =>
      rw [List.filter_cons_of_pos (by simp [hd]), runUpserts_cons, hd]
      exact ih _

theorem runUpserts_agrees (ids : List Nat) (detail : Nat → Option ItemData)
    (t : Table) (hdet : ∀ id d, detail id = some d → d.id = id) :
    ∀ id ∈ ids, ∀ d, detail id = some d →
      ∃ n, lookupNews (runUpserts ids detail t) id = some n ∧ Agrees n d := by
  induction ids generalizing t with
  | nil => simp
  | cons a ids ih =>
    intro id hid d hd
    rcases List.mem_cons.mp hid with rfl | hmem
    · by_cases hin : id ∈ ids
      · rw [runUpserts_cons]
        exact ih _ id hin d hd
      · rw [runUpserts_cons, hd]
        obtain ⟨n, hn, hag⟩ := lookupNews_upsertItem_self t d
        rw [hdet id d hd] at hn
        exact ⟨n, runUpserts_preserves_lookup ids detail _ hdet hin hn, hag⟩
    · rw [runUpserts_cons]
      exact ih _ id hmem d hd

/-- C8.  A synchronizer pass whose index fetch succeeded commits the
upserts of exactly the successfully fetched items: ids whose detail fetch
failed are skipped (removing them from the processed list changes
nothing), every successfully fetched item of the first 50 ids ends up
stored with its upstream fields, and the pass still runs to the prune —
a per-item failure never aborts the batch.  `hdet` states the upstream
contract that the item endpoint returns the item with the requested id. -/
theorem per_item_failure_skipped (ids : List Nat) (detail : Nat → Option ItemData)
    (t : Table) (hdet : ∀ id d, detail id = some d → d.id = id) :
    fetch_hackernews (some ids) detail t =
        prune (runUpserts (ids.take 50) detail t) ∧
      runUpserts (ids.take 50) detail t =
        runUpserts ((ids.take 50).filter (fun id => (detail id).isSome)) detail t ∧
      ∀ id ∈ ids.take 50, ∀ d, detail id = some d →
        ∃ n, lookupNews (runUpserts (ids.take 50) detail t) id = some n ∧ Agrees n d :=
  ⟨rfl, runUpserts_skips_failures _ _ _, runUpserts_agrees _ _ _ hdet⟩

/-- Witness for `per_item_failure_skipped`: ids [1, 2, 3] where fetching
id 2 fails; items 1 and 3 are committed. -/
theorem per_item_failure_skipped_witness :
    (∀ id d, (fun i => if i = 1 then some (⟨1, some "a", some 10, some "t1", none⟩ : ItemData)
        else if i = 3 then some ⟨3, some "b", some 30, some "t3", none⟩
        else none) id = some d → d.id = id) ∧
      ∀ id ∈ [1, 2, 3].take 50, ∀ d,
        (fun i => if i = 1 then some (⟨1, some "a", some 10, some "t1", none⟩ : ItemData)
          else if i = 3 then some ⟨3, some "b", some 30, some "t3", none⟩
          else none) id = some d →
        ∃ n, lookupNews (runUpserts ([1, 2, 3].take 50)
          (fun i => if i = 1 then some ⟨1, some "a", some 10, some "t1", none⟩
            else if i = 3 then some ⟨3, some "b", some 30, some "t3", none⟩
            else none) []) id = some n ∧ Agrees n d := by
  have hdet : ∀ id d, (fun i => if i = 1 then some (⟨1, some "a", some 10, some "t1", none⟩ : ItemData)
      else if i = 3 then some ⟨3, some "b", some 30, some "t3", none⟩
      else none) id = some d → d.id = id := by
    intro id d h
    by_cases h1 : id = 1
    · subst h1
      injection h with h2
      rw [← h2]
    · by_cases h3 : id = 3
      · subst h3
        injection h with h2
        rw [← h2]
      · simp only [] at h
        rw [if_neg h1, if_neg h3] at h
        exact Option.noConfusion h
  exact ⟨hdet, (per_item_failure_skipped [1, 2, 3] _ [] hdet).2.2⟩


/-! ### Retention prune (claim C5) -/

theorem mem_keysOf_of_mem {t : Table} {p : Nat × News} (h : p ∈ t) :
    p.1 ∈ keysOf t := List.mem_map_of_mem Prod.fst h

theorem keysNodup_upsertItem {t : Table} (d : ItemData) (hk : KeysNodup t) :
    KeysNodup (upsertItem t d) := by
  unfold upsertItem
  cases hn : lookupNews t d.id with
  | some n =>
    show KeysNodup (setNews t d.id _)
    unfold KeysNodup
    rw [keysOf_setNews]
    exact hk
  | none =>
    have hfree : d.id ∉ keysOf t := lookupNews_eq_none.mp hn
    show KeysNodup (t ++ _)
    unfold KeysNodup keysOf
    rw [List.map_append, List.nodup_append]
    refine ⟨hk, by simp, ?_⟩
    intro x hx hx2
    have hxid : x = d.id := by simpa using hx2
    exact hfree (hxid ▸ hx)

theorem keysNodup_runUpserts (ids : List Nat) (detail : Nat → Option ItemData)
    {t : Table} (hk : KeysNodup t) : KeysNodup (runUpserts ids detail t) := by
  induction ids generalizing t with
  | nil => exact hk
  | cons a ids ih =>
    rw [runUpserts_cons]
    cases hd : detail a with
    | none => exact ih hk
    | some d => exact ih (keysNodup_upsertItem d hk)

theorem entryLE_refl (p : Nat × News) : entryLE p p :=
  Or.inr ⟨rfl, Nat.le_refl _⟩

theorem prune_of_small {t : Table} (h : ¬150 < t.length) : prune t = t := by
  unfold prune
  rw [if_neg h]

theorem prune_eq_filter {t : Table} (h : 150 < t.length) :
    prune t = t.filter
      (fun p => decide (p.1 ∉ keysOf ((sortByTime t).take (t.length - 150)))) := by
  unfold prune
  rw [if_pos h]

theorem prune_perm_drop {t : Table} (hk : KeysNodup t) (h : 150 < t.length) :
    (prune t).Perm ((sortByTime t).drop (t.length - 150)) := by
  set S := sortByTime t with hSdef
  set k := t.length - 150 with hkdef
  have hSperm : S.Perm t := List.perm_insertionSort entryLE t
  have hkeys : (keysOf S).Nodup := by
    have hp : (keysOf S).Perm (keysOf t) := hSperm.map Prod.fst
    exact hp.nodup_iff.mpr hk
  have hsplit : keysOf S = keysOf (S.take k) ++ keysOf (S.drop k) := by
    unfold keysOf
    rw [← List.map_append, List.take_append_drop]
  have hdisj : ∀ q ∈ S.drop k, q.1 ∉ keysOf (S.take k) := by
    intro q hq hmem
    rw [hsplit] at hkeys
    exact (List.disjoint_of_nodup_append hkeys) hmem (mem_keysOf_of_mem hq)
  rw [prune_eq_filter h]
  have hpermf : (t.filter (fun p => decide (p.1 ∉ keysOf (S.take k)))).Perm
      ((S.take k ++ S.drop k).filter (fun p => decide (p.1 ∉ keysOf (S.take k)))) := by
    refine List.Perm.filter _ ?_
    rw [List.take_append_drop]
    exact hSperm.symm
  rw [List.filter_append] at hpermf
  have h1 : (S.take k).filter (fun p => decide (p.1 ∉ keysOf (S.take k))) = [] := by
    rw [List.filter_eq_nil_iff]
    intro p hp
    simp only [decide_eq_true_eq, not_not]
    exact mem_keysOf_of_mem hp
  have h2 : (S.drop k).filter (fun p => decide (p.1 ∉ keysOf (S.take k))) = S.drop k := by
    rw [List.filter_eq_self]
    intro p hp
    simpa using hdisj p hp
  rw [h1, h2, List.nil_append] at hpermf
  exact hpermf

/-- Characterization of the prune on an over-full table: it removes exactly
the `count - 150` first entries of the time-sorted order, keeps a
permutation of the rest, and every removed entry precedes every kept entry
in the prune ordering. -/
theorem prune_spec {t : Table} (hk : KeysNodup t) (h : 150 < t.length) :
    ∃ removed kept : Table,
      sortByTime t = removed ++ kept ∧
      removed.length = t.length - 150 ∧
      prune t = t.filter (fun p => decide (p.1 ∉ keysOf removed)) ∧
      (prune t).Perm kept ∧
      (prune t).length = 150 ∧
      (∀ p ∈ removed, ∀ q ∈ prune t, entryLE p q) ∧
      (∀ p ∈ removed, p ∈ t) := by
  set S := sortByTime t with hSdef
  set k := t.length - 150 with hkdef
  have hSperm : S.Perm t := List.perm_insertionSort entryLE t
  have hSsorted : List.Sorted entryLE S := List.sorted_insertionSort entryLE t
  have hSlen : S.length = t.length := hSperm.length_eq
  have hdrop := prune_perm_drop hk h
  refine ⟨S.take k, S.drop k, (List.take_append_drop k S).symm, ?_,
    prune_eq_filter h, hdrop, ?_, ?_, ?_⟩
  · rw [List.length_take]
    omega
  · rw [hdrop.length_eq, List.length_drop, ← hSdef]
    omega
  · intro p hp q hq
    have hq' : q ∈ S.drop k := hdrop.subset hq
    have hpw : List.Pairwise entryLE (S.take k ++ S.drop k) := by
      rw [List.take_append_drop]
      exact hSsorted
    rw [List.pairwise_append] at hpw
    exact hpw.2.2 p hp q hq'
  · intro p hp
    exact hSperm.subset (List.mem_of_mem_take hp)


/-! ### Idempotence machinery (claim C4) -/

theorem news_update_self {n : News} {d : ItemData} (h : Agrees n d) :
    { n with by_author := d.by_author, time := d.time, title := d.title,
             url := d.url } = n := by
  obtain ⟨h1, h2, h3, h4⟩ := h
  cases n
  simp_all

theorem setNews_of_not_mem {t : Table} {k : Nat} (n : News) (h : k ∉ keysOf t) :
    setNews t k n = t := by
  induction t with
  | nil => rfl
  | cons p t ih =>
    have h1 : p.1 ≠ k := fun he =>
      h (keysOf_cons p t ▸ (he ▸ List.mem_cons_self p.1 (keysOf t)))
    have h2 : k ∉ keysOf t := fun hm =>
      h (keysOf_cons p t ▸ List.mem_cons_of_mem _ hm)
    rw [setNews_cons, if_neg h1, ih h2]

theorem setNews_eq_self {t : Table} {k : Nat} {n : News} (hk : KeysNodup t)
    (h : lookupNews t k = some n) : setNews t k n = t := by
  induction t with
  | nil => rfl
  | cons p t ih =>
    rw [lookupNews_cons] at h
    rw [setNews_cons]
    by_cases hp : p.1 = k
    · rw [if_pos hp] at h ⊢
      have hn : n = p.2 := by
        injection h with h
        exact h.symm
      subst hn
      have hkt : k ∉ keysOf t := hp ▸ (keysNodup_cons hk).1
      rw [setNews_of_not_mem _ hkt]
    · rw [if_neg hp] at h
      rw [if_neg hp, ih (keysNodup_cons hk).2 h]

theorem upsertItem_noop {t : Table} {d : ItemData} {n : News} (hk : KeysNodup t)
    (hl : lookupNews t d.id = some n) (hag : Agrees n d) : upsertItem t d = t := by
  have hu : upsertItem t d = setNews t d.id
      { n with by_author := d.by_author, time := d.time, title := d.title,
               url := d.url } := by
    unfold upsertItem
    rw [hl]
  rw [hu, news_update_self hag]
  exact setNews_eq_self hk hl

theorem keysNodup_prune {t : Table} (hk : KeysNodup t) : KeysNodup (prune t) := by
  by_cases h : 150 < t.length
  · rw [prune_eq_filter h]
    exact List.Nodup.sublist ((List.filter_sublist t).map Prod.fst) hk
  · rw [prune_of_small h]
    exact hk

theorem entryLE_congr_left (a c b : Nat × News) (ht : c.2.time = a.2.time)
    (hk : c.1 = a.1) : entryLE c b ↔ entryLE a b := by
  unfold entryLE
  rw [ht, hk]

theorem perm_cons_erase_subset {α : Type} [DecidableEq α] {a : α} {l : List α}
    (h : a ∈ l) : ∃ E : List α, l.Perm (a :: E) ∧ ∀ x ∈ E, x ∈ l :=
  ⟨l.erase a, List.perm_cons_erase h, fun x hx => List.mem_of_mem_erase hx⟩

/-- In a list sorted by a total preorder, if the list is a permutation of
`A ++ B` with every element of `A` strictly below every element of `B`,
the first `A.length` elements are a permutation of `A`. -/
theorem take_perm_of_sorted :
    ∀ S : Table, List.Sorted entryLE S →
      ∀ A B : Table, S.Perm (A ++ B) →
        (∀ a ∈ A, ∀ b ∈ B, entryLE a b ∧ ¬entryLE b a) →
        (S.take A.length).Perm A := by
  intro S
  induction S with
  | nil =>
    intro _ A B hperm _
    have h0 := List.append_eq_nil.mp (List.Perm.eq_nil hperm.symm)
    rw [h0.1]
    simp
  | cons s S ih =>
    intro hS A B hperm hsep
    cases A with
    | nil => simp
    | cons a0 A' =>
      have hsmem : s ∈ (a0 :: A') ++ B := hperm.subset (List.mem_cons_self s S)
      have hsA : s ∈ a0 :: A' := by
        rcases List.mem_append.mp hsmem with h | h
        · exact h
        · exfalso
          have ha0 : a0 ∈ s :: S :=
            hperm.symm.subset (List.mem_append_left B (List.mem_cons_self a0 A'))
          have hle := hsep a0 (List.mem_cons_self a0 A') s h
          rcases List.mem_cons.mp ha0 with he | hm
          · exact hle.2 (by rw [he]; exact entryLE_refl s)
          · exact hle.2 (List.rel_of_sorted_cons hS a0 hm)
      obtain ⟨E, hAE, hEsub⟩ := perm_cons_erase_subset hsA
      have hperm2 : S.Perm (E ++ B) :=
        List.Perm.cons_inv (hperm.trans (hAE.append_right B))
      have hsep2 : ∀ x ∈ E, ∀ b ∈ B, entryLE x b ∧ ¬entryLE b x :=
        fun x hx => hsep x (hEsub x hx)
      have ihr := ih hS.of_cons E B hperm2 hsep2
      have hlen : E.length = A'.length := by
        have h := hAE.length_eq
        simp only [List.length_cons] at h
        omega
      rw [hlen] at ihr
      rw [List.length_cons, List.take_succ_cons]
      exact (ihr.cons s).trans hAE.symm


/-- Running the upsert loop over a table in which every already-stored
upserted key agrees with its upstream data only appends fresh rows: each
appended row has a key absent from the table and carries the timestamp of
its upstream item. -/
theorem runUpserts_extends (ids : List Nat) (detail : Nat → Option ItemData)
    (hdet : ∀ id d, detail id = some d → d.id = id) :
    ∀ t : Table, KeysNodup t →
      (∀ id ∈ ids, ∀ d, detail id = some d →
        ∀ n, lookupNews t d.id = some n → Agrees n d) →
      ∃ ex : Table, runUpserts ids detail t = t ++ ex ∧
        ∀ p ∈ ex, p.1 ∉ keysOf t ∧
          ∃ id ∈ ids, ∃ d, detail id = some d ∧ p.1 = d.id ∧ p.2.time = d.time := by
  induction ids with
  | nil =>
    intro t _ _
    exact ⟨[], (List.append_nil t).symm, by simp⟩
  | cons a ids ih =>
    intro t hk H
    cases hd : detail a with
    | none =>
      rw [runUpserts_cons_none hd]
      obtain ⟨ex, he, hp⟩ := ih t hk (fun id hid => H id (List.mem_cons_of_mem a hid))
      refine ⟨ex, he, fun p hpm => ⟨(hp p hpm).1, ?_⟩⟩
      obtain ⟨id, hid, rest⟩ := (hp p hpm).2
      exact ⟨id, List.mem_cons_of_mem a hid, rest⟩
    | some d =>
      rw [runUpserts_cons_some hd]
      cases hl : lookupNews t d.id with
      | some n =>
        have hag : Agrees n d := H a (List.mem_cons_self a ids) d hd n hl
        rw [upsertItem_noop hk hl hag]
        obtain ⟨ex, he, hp⟩ := ih t hk (fun id hid => H id (List.mem_cons_of_mem a hid))
        refine ⟨ex, he, fun p hpm => ⟨(hp p hpm).1, ?_⟩⟩
        obtain ⟨id, hid, rest⟩ := (hp p hpm).2
        exact ⟨id, List.mem_cons_of_mem a hid, rest⟩
      | none =>
        have hup : upsertItem t d =
            t ++ [(d.id, (⟨d.by_author, d.time, d.title, d.url, 0, 0⟩ : News))] :=
          ((upsert_frame_core t d).2 hl).1
        rw [hup]
        have hkfree : d.id ∉ keysOf t := lookupNews_eq_none.mp hl
        have hk2 : KeysNodup (t ++ [(d.id, (⟨d.by_author, d.time, d.title, d.url, 0, 0⟩ : News))]) := by
          have h1 := keysNodup_upsertItem d hk
          rwa [hup] at h1
        have H2 : ∀ id ∈ ids, ∀ d2, detail id = some d2 → ∀ n,
            lookupNews (t ++ [(d.id, (⟨d.by_author, d.time, d.title, d.url, 0, 0⟩ : News))]) d2.id = some n →
            Agrees n d2 := by
          intro id hid d2 hd2 n hn
          by_cases hde : d2.id = d.id
          · have hia : id = a := by
              rw [← hdet id d2 hd2, hde, hdet a d hd]
            subst hia
            have hdd : d2 = d := by
              rw [hd] at hd2
              injection hd2 with h2
              exact h2.symm
            subst hdd
            rw [hde, lookupNews_append_none _ hl, lookupNews_cons] at hn
            rw [if_pos rfl] at hn
            have hnn : n = (⟨d2.by_author, d2.time, d2.title, d2.url, 0, 0⟩ : News) := by
              injection hn with h2
              exact h2.symm
            rw [hnn]
            exact ⟨rfl, rfl, rfl, rfl⟩
          · have hkeep : lookupNews
                (t ++ [(d.id, (⟨d.by_author, d.time, d.title, d.url, 0, 0⟩ : News))]) d2.id =
                lookupNews t d2.id := by
              cases hlt : lookupNews t d2.id with
              | some m => exact lookupNews_append_some _ hlt
              | none =>
                rw [lookupNews_append_none _ hlt, lookupNews_cons,
                  if_neg (fun he => hde (by rw [← he]))]
                rfl
            rw [hkeep] at hn
            exact H id (List.mem_cons_of_mem a hid) d2 hd2 n hn
        obtain ⟨ex, he, hp⟩ := ih _ hk2 H2
        refine ⟨(d.id, (⟨d.by_author, d.time, d.title, d.url, 0, 0⟩ : News)) :: ex, ?_, ?_⟩
        · rw [he, List.append_assoc]
          rfl
        · intro p hpm
          rcases List.mem_cons.mp hpm with rfl | hpm2
          · exact ⟨hkfree, a, List.mem_cons_self a ids, d, hd, rfl, rfl⟩
          · obtain ⟨hnk, id, hid, d2, hd2, hkey, htime⟩ := hp p hpm2
            refine ⟨fun hc => hnk ?_, id, List.mem_cons_of_mem a hid, d2, hd2, hkey, htime⟩
            unfold keysOf
            rw [List.map_append]
            exact List.mem_append_left _ hc


/-- Core of idempotence: re-running the upsert loop over the pruned result
of a table whose upserted keys already agree with the upstream data, then
pruning again, gives back exactly the pruned table. -/
theorem prune_runUpserts_of_agrees (L : List Nat) (detail : Nat → Option ItemData)
    (hdet : ∀ id d, detail id = some d → d.id = id) (t1 : Table)
    (hk1 : KeysNodup t1)
    (hagree : ∀ id ∈ L, ∀ d, detail id = some d →
      ∃ n, lookupNews t1 id = some n ∧ Agrees n d) :
    prune (runUpserts L detail (prune t1)) = prune t1 := by
  have hkr : KeysNodup (prune t1) := keysNodup_prune hk1
  have Hr : ∀ id ∈ L, ∀ d, detail id = some d →
      ∀ n, lookupNews (prune t1) d.id = some n → Agrees n d := by
    intro id hid d hd n hn
    have hmem : (d.id, n) ∈ prune t1 := mem_of_lookupNews hn
    have hmem1 : (d.id, n) ∈ t1 := by
      by_cases h : 150 < t1.length
      · rw [prune_eq_filter h] at hmem
        exact (List.mem_filter.mp hmem).1
      · rwa [prune_of_small h] at hmem
    have hl1 : lookupNews t1 d.id = some n := lookupNews_of_mem hk1 hmem1
    obtain ⟨n1, hn1, hag1⟩ := hagree id hid d hd
    rw [hdet id d hd, hn1] at hl1
    injection hl1 with h2
    rw [← h2]
    exact hag1
  obtain ⟨ex, hex, hexp⟩ := runUpserts_extends L detail hdet (prune t1) hkr Hr
  rw [hex]
  by_cases hbig : 150 < t1.length
  · obtain ⟨removed, kept, hS, hrlen, hfil, hperm, hplen, hord, hmemr⟩ :=
      prune_spec hk1 hbig
    by_cases hex0 : ex = []
    · rw [hex0, List.append_nil]
      apply prune_of_small
      rw [hplen]
      omega
    · have hexpos : 0 < ex.length := List.length_pos.mpr hex0
      have hlen2 : (prune t1 ++ ex).length = 150 + ex.length := by
        rw [List.length_append, hplen]
      have hbig2 : 150 < (prune t1 ++ ex).length := by omega
      have hsep : ∀ a ∈ ex, ∀ b ∈ prune t1, entryLE a b ∧ ¬entryLE b a := by
        intro a ha b hb
        obtain ⟨hnk, id, hid, d, hd, hkey, htime⟩ := hexp a ha
        obtain ⟨n1, hn1, hag1⟩ := hagree id hid d hd
        have hkeyid : a.1 = id := by rw [hkey, hdet id d hd]
        have htwin : (a.1, n1) ∈ t1 := by
          rw [hkeyid]
          exact mem_of_lookupNews hn1
        have htw_time : n1.time = a.2.time := by
          rw [hag1.2.1]
          exact htime.symm
        have ht1perm : t1.Perm (removed ++ kept) := by
          rw [← hS]
          exact (List.perm_insertionSort entryLE t1).symm
        have htw_removed : (a.1, n1) ∈ removed := by
          rcases List.mem_append.mp (ht1perm.subset htwin) with hr | hkept
          · exact hr
          · exact absurd (mem_keysOf_of_mem (hperm.mem_iff.mpr hkept)) hnk
        have hEL : entryLE a b := by
          have h1 := hord _ htw_removed b hb
          exact (entryLE_congr_left a (a.1, n1) b htw_time rfl).mp h1
        refine ⟨hEL, fun hba => ?_⟩
        have hanti := entryLE_antisymm hEL hba
        refine hnk ?_
        rw [hanti.2]
        exact mem_keysOf_of_mem hb
      rw [prune_eq_filter hbig2]
      have hk2len : (prune t1 ++ ex).length - 150 = ex.length := by omega
      rw [hk2len]
      have hsorted2 : List.Sorted entryLE (sortByTime (prune t1 ++ ex)) :=
        List.sorted_insertionSort entryLE _
      have hperm2 : (sortByTime (prune t1 ++ ex)).Perm (ex ++ prune t1) :=
        (List.perm_insertionSort entryLE _).trans List.perm_append_comm
      have htake := take_perm_of_sorted _ hsorted2 ex (prune t1) hperm2 hsep
      have hkeys_iff : ∀ x, x ∈ keysOf ((sortByTime (prune t1 ++ ex)).take ex.length) ↔
          x ∈ keysOf ex := fun x => (htake.map Prod.fst).mem_iff
      rw [List.filter_append]
      have hfil1 : (prune t1).filter
          (fun p => decide (p.1 ∉ keysOf ((sortByTime (prune t1 ++ ex)).take ex.length))) =
          prune t1 := by
        rw [List.filter_eq_self]
        intro b hb
        simp only [decide_eq_true_eq]
        intro hmem
        rw [hkeys_iff] at hmem
        obtain ⟨aa, haa, hab⟩ := List.mem_map.mp hmem
        obtain ⟨hnk, _⟩ := hexp aa haa
        refine hnk ?_
        rw [hab]
        exact mem_keysOf_of_mem hb
      have hfil2 : ex.filter
          (fun p => decide (p.1 ∉ keysOf ((sortByTime (prune t1 ++ ex)).take ex.length))) =
          [] := by
        rw [List.filter_eq_nil_iff]
        intro aa haa
        simp only [decide_eq_true_eq, not_not]
        rw [hkeys_iff]
        exact mem_keysOf_of_mem haa
      rw [hfil1, hfil2, List.append_nil]
  · have hexnil : ex = [] := by
      rw [List.eq_nil_iff_forall_not_mem]
      intro p hp
      obtain ⟨hnk, id, hid, d, hd, hkey, _⟩ := hexp p hp
      obtain ⟨n1, hn1, _⟩ := hagree id hid d hd
      refine hnk ?_
      rw [prune_of_small hbig, hkey, hdet id d hd]
      exact mem_keysOf_of_mem (mem_of_lookupNews hn1)
    rw [hexnil, List.append_nil, prune_of_small hbig, prune_of_small hbig]

/-- C4.  Running the synchronizer pass twice with identical upstream data
(same index result, same per-item details, the item endpoint returning the
item with the requested id) yields exactly the same Item rows as running
it once: the second pass creates no duplicate rows (the external id is the
upsert key) and leaves every row with the same field values. -/
theorem sync_idempotent (ids : List Nat) (detail : Nat → Option ItemData) (t : Table)
    (hk : KeysNodup t) (hdet : ∀ id d, detail id = some d → d.id = id) :
    fetch_hackernews (some ids) detail (fetch_hackernews (some ids) detail t) =
      fetch_hackernews (some ids) detail t := by
  have hk1 : KeysNodup (runUpserts (ids.take 50) detail t) := keysNodup_runUpserts _ _ hk
  have hagree := runUpserts_agrees (ids.take 50) detail t hdet
  exact prune_runUpserts_of_agrees (ids.take 50) detail hdet _ hk1 hagree

/-- Witness for `sync_idempotent`: a pass over ids [1, 2] (id 2 failing)
against a table already holding id 9 is idempotent. -/
theorem sync_idempotent_witness :
    KeysNodup [(9, (⟨none, some 5, none, none, 2, 0⟩ : News))] ∧
      fetch_hackernews (some [1, 2])
          (fun i => if i = 1 then some ⟨1, some "a", some 10, some "t", none⟩ else none)
          (fetch_hackernews (some [1, 2])
            (fun i => if i = 1 then some ⟨1, some "a", some 10, some "t", none⟩ else none)
            [(9, ⟨none, some 5, none, none, 2, 0⟩)]) =
        fetch_hackernews (some [1, 2])
          (fun i => if i = 1 then some ⟨1, some "a", some 10, some "t", none⟩ else none)
          [(9, ⟨none, some 5, none, none, 2, 0⟩)] := by
  have hdet : ∀ id d,
      (fun i => if i = 1 then some (⟨1, some "a", some 10, some "t", none⟩ : ItemData)
        else none) id = some d → d.id = id := by
    intro id d h
    by_cases h1 : id = 1
    · subst h1
      injection h with h2
      rw [← h2]
    · simp only [] at h
      rw [if_neg h1] at h
      exact Option.noConfusion h
  exact ⟨by decide, sync_idempotent [1, 2] _ [(9, ⟨none, some 5, none, none, 2, 0⟩)]
    (by decide) hdet⟩

/-- C5.  After every completed synchronizer pass (index fetch succeeded)
the stored item count is at most 150; and whenever the post-upsert count
exceeds 150, there is a set of exactly `count - 150` removed rows, all
drawn from the post-upsert table, each preceding every surviving row in
the timestamp-ascending prune order (ties by primary key), such that the
pass result is the post-upsert table with exactly those rows deleted and
has exactly 150 rows. -/
theorem sync_retention (ids : List Nat) (detail : Nat → Option ItemData) (t : Table)
    (hk : KeysNodup t) :
    (fetch_hackernews (some ids) detail t).length ≤ 150 ∧
      (150 < (runUpserts (ids.take 50) detail t).length →
        ∃ removed : Table,
          removed.length = (runUpserts (ids.take 50) detail t).length - 150 ∧
          (∀ p ∈ removed, p ∈ runUpserts (ids.take 50) detail t) ∧
          fetch_hackernews (some ids) detail t =
            (runUpserts (ids.take 50) detail t).filter
              (fun p => decide (p.1 ∉ keysOf removed)) ∧
          (fetch_hackernews (some ids) detail t).length = 150 ∧
          ∀ p ∈ removed, ∀ q ∈ fetch_hackernews (some ids) detail t, entryLE p q) := by
  have hk1 : KeysNodup (runUpserts (ids.take 50) detail t) := keysNodup_runUpserts _ _ hk
  have hfe : fetch_hackernews (some ids) detail t =
      prune (runUpserts (ids.take 50) detail t) := rfl
  rw [hfe]
  by_cases hbig : 150 < (runUpserts (ids.take 50) detail t).length
  · obtain ⟨removed, kept, hS, hrlen, hfil, hperm, hplen, hord, hmemr⟩ :=
      prune_spec hk1 hbig
    exact ⟨le_of_eq hplen, fun _ => ⟨removed, hrlen, hmemr, hfil, hplen, hord⟩⟩
  · rw [prune_of_small hbig]
    exact ⟨by omega, fun hc => absurd hc hbig⟩

/-- Witness for `sync_retention`: a failing-details pass over a one-row
table stays within the cap. -/
theorem sync_retention_witness :
    KeysNodup [(7, (⟨none, some 3, none, none, 0, 0⟩ : News))] ∧
      (fetch_hackernews (some [2]) (fun _ => none)
        [(7, ⟨none, some 3, none, none, 0, 0⟩)]).length ≤ 150 :=
  ⟨by decide, (sync_retention [2] (fun _ => none)
    [(7, ⟨none, some 3, none, none, 0, 0⟩)] (by decide)).1⟩


/-! ### Admin user deletion (claims C9, C10)

`delete_user` (src/app.py lines 518-528) decrements counters over the
user's reaction collections and then issues `db.session.delete(user)`.
Because `User.liked_news` / `User.disliked_news` are many-to-many
relationships configured with `cascade="all, delete"` (src/app.py lines
86-97), SQLAlchemy's documented delete-cascade semantics on a `secondary`
relationship delete the related `News` rows themselves, not merely the
association rows.  The embedding therefore removes every news row the user
had reacted to. -/

/-- Primary-key lookup in the user table. -/
def lookupUser (t : List (Nat × UserState)) (k : Nat) : Option UserState :=
  (t.find? (fun p => p.1 == k)).map (fun p => p.2)

/-- The state touched by the admin deletion endpoint. -/
structure AdminState where
  userRows : List (Nat × UserState)
  newsTable : Table
deriving Repr, DecidableEq

/-- `for news in user.liked_news: news.like_count -= 1`. -/
def decrementLikes (t : Table) (ids : List Nat) : Table :=
  ids.foldl (fun acc k =>
    match lookupNews acc k with
    | some n => setNews acc k { n with like_count := n.like_count - 1 }
    | none => acc) t

/-- `for news in user.disliked_news: news.dislike_count -= 1`. -/
def decrementDislikes (t : Table) (ids : List Nat) : Table :=
  ids.foldl (fun acc k =>
    match lookupNews acc k with
    | some n => setNews acc k { n with dislike_count := n.dislike_count - 1 }
    | none => acc) t

/-- `delete_user` after the admin check: decrement counters over the
user's collections, then delete the user row; the configured
`cascade="all, delete"` additionally deletes every news row in either
collection.  An unknown user id (`get_or_404`) causes no mutation. -/
def delete_user (s : AdminState) (uid : Nat) : AdminState :=
  match lookupUser s.userRows uid with
  | none => s
  | some u =>
    { userRows := s.userRows.filter (fun p => decide (p.1 ≠ uid)),
      newsTable :=
        (decrementDislikes (decrementLikes s.newsTable u.liked_news)
            u.disliked_news).filter
          (fun p => decide (p.1 ∉ u.liked_news ∧ p.1 ∉ u.disliked_news)) }

theorem decrementLikes_cons (a : Nat) (ids : List Nat) (t : Table) :
    decrementLikes t (a :: ids) =
      decrementLikes
        (match lookupNews t a with
         | some n => setNews t a { n with like_count := n.like_count - 1 }
         | none => t) ids := rfl

theorem decrementDislikes_cons (a : Nat) (ids : List Nat) (t : Table) :
    decrementDislikes t (a :: ids) =
      decrementDislikes
        (match lookupNews t a with
         | some n => setNews t a { n with dislike_count := n.dislike_count - 1 }
         | none => t) ids := rfl

theorem decrementLikes_lookup_ne (ids : List Nat) {t : Table} {k : Nat}
    (hk : k ∉ ids) : lookupNews (decrementLikes t ids) k = lookupNews t k := by
  induction ids generalizing t with
  | nil => rfl
  | cons a ids ih =>
    have hka : k ≠ a := fun he => hk (he ▸ List.mem_cons_self a ids)
    have hk2 : k ∉ ids := fun hm => hk (List.mem_cons_of_mem a hm)
    rw [decrementLikes_cons]
    cases hl : lookupNews t a with
    | some n => rw [ih hk2, lookupNews_setNews_ne _ hka]
    | none => exact ih hk2

theorem decrementDislikes_lookup_ne (ids : List Nat) {t : Table} {k : Nat}
    (hk : k ∉ ids) : lookupNews (decrementDislikes t ids) k = lookupNews t k := by
  induction ids generalizing t with
  | nil => rfl
  | cons a ids ih =>
    have hka : k ≠ a := fun he => hk (he ▸ List.mem_cons_self a ids)
    have hk2 : k ∉ ids := fun hm => hk (List.mem_cons_of_mem a hm)
    rw [decrementDislikes_cons]
    cases hl : lookupNews t a with
    | some n => rw [ih hk2, lookupNews_setNews_ne _ hka]
    | none => exact ih hk2

theorem find?_filter_none {α : Type} (t : List (Nat × α)) (k : Nat)
    (Q : Nat × α → Bool) (h : ∀ p ∈ t, p.1 = k → Q p = false) :
    (t.filter Q).find? (fun p => p.1 == k) = none := by
  induction t with
  | nil => rfl
  | cons p t ih =>
    by_cases hq : Q p = true
    · rw [List.filter_cons_of_pos hq]
      have hp : p.1 ≠ k := fun he => by
        rw [h p (List.mem_cons_self p t) he] at hq
        exact Bool.noConfusion hq
      rw [List.find?_cons_of_neg _ (by simpa using hp)]
      exact ih (fun q hq2 => h q (List.mem_cons_of_mem _ hq2))
    · rw [List.filter_cons_of_neg (by simpa using hq)]
      exact ih (fun q hq2 => h q (List.mem_cons_of_mem _ hq2))

theorem find?_filter_eq {α : Type} (t : List (Nat × α)) (k : Nat)
    (Q : Nat × α → Bool) (h : ∀ p ∈ t, p.1 = k → Q p = true) :
    (t.filter Q).find? (fun p => p.1 == k) = t.find? (fun p => p.1 == k) := by
  induction t with
  | nil => rfl
  | cons p t ih =>
    by_cases hp : p.1 = k
    · rw [List.filter_cons_of_pos (h p (List.mem_cons_self p t) hp),
        List.find?_cons_of_pos _ (by simpa using hp),
        List.find?_cons_of_pos _ (by simpa using hp)]
    · have htail := ih (fun q hq2 => h q (List.mem_cons_of_mem _ hq2))
      by_cases hq : Q p = true
      · rw [List.filter_cons_of_pos hq, List.find?_cons_of_neg _ (by simpa using hp),
          List.find?_cons_of_neg _ (by simpa using hp)]
        exact htail
      · rw [List.filter_cons_of_neg (by simpa using hq),
          List.find?_cons_of_neg _ (by simpa using hp)]
        exact htail

theorem lookupNews_filter_none {t : Table} {k : Nat} {Q : Nat × News → Bool}
    (h : ∀ p ∈ t, p.1 = k → Q p = false) : lookupNews (t.filter Q) k = none := by
  unfold lookupNews
  rw [find?_filter_none t k Q h]
  rfl

theorem lookupNews_filter_eq {t : Table} {k : Nat} {Q : Nat × News → Bool}
    (h : ∀ p ∈ t, p.1 = k → Q p = true) :
    lookupNews (t.filter Q) k = lookupNews t k := by
  unfold lookupNews
  rw [find?_filter_eq t k Q h]

/-- C10.  Because the liked/disliked relationships carry
`cascade="all, delete"`, a successful admin deletion of a user removes
from the store every news row the user had liked or disliked (not merely
the association rows), leaves every news row the user never reacted to
unchanged, and removes the user row. -/
theorem delete_user_cascade (s : AdminState) (uid : Nat) (u : UserState)
    (hu : lookupUser s.userRows uid = some u) :
    (∀ k, k ∈ u.liked_news ∨ k ∈ u.disliked_news →
      lookupNews (delete_user s uid).newsTable k = none) ∧
    (∀ k, k ∉ u.liked_news → k ∉ u.disliked_news →
      lookupNews (delete_user s uid).newsTable k = lookupNews s.newsTable k) ∧
    lookupUser (delete_user s uid).userRows uid = none := by
  have hdel : delete_user s uid =
      { userRows := s.userRows.filter (fun p => decide (p.1 ≠ uid)),
        newsTable :=
          (decrementDislikes (decrementLikes s.newsTable u.liked_news)
              u.disliked_news).filter
            (fun p => decide (p.1 ∉ u.liked_news ∧ p.1 ∉ u.disliked_news)) } := by
    unfold delete_user
    rw [hu]
  rw [hdel]
  refine ⟨?_, ?_, ?_⟩
  · intro k hk
    apply lookupNews_filter_none
    intro p _ hpk
    rw [hpk]
    rcases hk with hk | hk
    · simp [hk]
    · simp [hk]
  · intro k hk1 hk2
    have h1 : lookupNews
        ((decrementDislikes (decrementLikes s.newsTable u.liked_news)
            u.disliked_news).filter
          (fun p => decide (p.1 ∉ u.liked_news ∧ p.1 ∉ u.disliked_news))) k =
        lookupNews (decrementDislikes (decrementLikes s.newsTable u.liked_news)
          u.disliked_news) k := by
      apply lookupNews_filter_eq
      intro p _ hpk
      rw [hpk]
      simp [hk1, hk2]
    rw [h1, decrementDislikes_lookup_ne _ hk2, decrementLikes_lookup_ne _ hk1]
  · unfold lookupUser
    rw [find?_filter_none]
    · rfl
    · intro p _ hpk
      simp [hpk]

/-- Witness for `delete_user_cascade`: deleting user 1, who liked item 10
and disliked item 20, removes rows 10 and 20, keeps row 30 unchanged, and
removes the user row. -/
theorem delete_user_cascade_witness :
    lookupUser [(1, (⟨[10], [20]⟩ : UserState))] 1 = some ⟨[10], [20]⟩ ∧
      lookupNews (delete_user ⟨[(1, ⟨[10], [20]⟩)],
        [(10, ⟨none, none, none, none, 3, 0⟩), (20, ⟨none, none, none, none, 0, 2⟩),
         (30, ⟨none, none, none, none, 1, 1⟩)]⟩ 1).newsTable 10 = none ∧
      lookupNews (delete_user ⟨[(1, ⟨[10], [20]⟩)],
        [(10, ⟨none, none, none, none, 3, 0⟩), (20, ⟨none, none, none, none, 0, 2⟩),
         (30, ⟨none, none, none, none, 1, 1⟩)]⟩ 1).newsTable 30 =
        some ⟨none, none, none, none, 1, 1⟩ ∧
      lookupUser (delete_user ⟨[(1, ⟨[10], [20]⟩)],
        [(10, ⟨none, none, none, none, 3, 0⟩), (20, ⟨none, none, none, none, 0, 2⟩),
         (30, ⟨none, none, none, none, 1, 1⟩)]⟩ 1).userRows 1 = none := by
  have h := delete_user_cascade ⟨[(1, ⟨[10], [20]⟩)],
    [(10, ⟨none, none, none, none, 3, 0⟩), (20, ⟨none, none, none, none, 0, 2⟩),
     (30, ⟨none, none, none, none, 1, 1⟩)]⟩ 1 ⟨[10], [20]⟩ (by decide)
  refine ⟨by decide, h.1 10 (Or.inl (by decide)), ?_, h.2.2⟩
  rw [h.2.1 30 (by decide) (by decide)]
  decide

/-- C9 (evaluation at the failing input).  The admin deletes user 1, who
liked item 10 (`like_count = 3`) and disliked item 20
(`dislike_count = 2`).  The claim expects item 10 to remain with
`like_count = 2` and item 20 with `dislike_count = 1`; because of the
`cascade="all, delete"` on the many-to-many relationships, the code
instead deletes both rows outright (the preceding counter decrements are
lost with them), keeping only the untouched row 30. -/
theorem delete_user_loses_decremented_rows :
    delete_user ⟨[(1, (⟨[10], [20]⟩ : UserState))],
      [(10, ⟨none, none, none, none, 3, 0⟩), (20, ⟨none, none, none, none, 0, 2⟩),
       (30, ⟨none, none, none, none, 1, 1⟩)]⟩ 1 =
    ⟨[], [(30, ⟨none, none, none, none, 1, 1⟩)]⟩ := by decide

end TechTeller
